import Mathlib

/-!
Shallow embedding of `src/zip.go` from golang-collections/collections-1.

The repository is a single merge-style "zip" engine over two sorted index
ranges, driven through a caller-supplied `Zipper` capability
(`LenLeft`, `LenRight`, `Compare`, `AddLeft`, `AddRight`, `AddBoth`).
We embed a run of the engine as the list of capability calls it makes,
in order, together with its outcome (`Except.ok ()` for normal return,
`Except.error msg` for a Go `panic`).
-/

namespace Collections

/-- Three-valued ordering result. Modelled from the spec: the `Ord` type with
its constants `Less`, `Equal`, `Greater` is declared in a repository file that
is not under `src/`; per the spec it is a closed three-valued enumeration
carried on the Go `int` type (the engine formats unexpected values with `%d`),
so we embed it as `Int` with three distinguished values. -/
abbrev Ord := Int

/-- Modelled from the spec: the `Less` constant of the ordering primitive. -/
def Less : Ord := -1

/-- Modelled from the spec: the `Equal` constant of the ordering primitive. -/
def Equal : Ord := 0

/-- Modelled from the spec: the `Greater` constant of the ordering primitive. -/
def Greater : Ord := 1

/-- The data the engine consumes from a `Zipper` implementation: the two
reported lengths and the comparison function.  The append operations carry no
data; their invocations are recorded in the call trace of a run. -/
structure Zipper where
  lenLeft : Int
  lenRight : Int
  compare : Int → Int → Ord

/-- One capability call made by the engine on its `Zipper`. -/
inductive Call where
  | lenLeft : Call
  | lenRight : Call
  | compare : Int → Int → Call
  | addLeft : Int → Call
  | addRight : Int → Call
  | addBoth : Int → Int → Call
  deriving DecidableEq, Repr

/-- The `for i < maxLeft || j < maxRight` loop of `ZipWithGaps`
(src/zip.go lines 42-68), embedded as the list of capability calls it performs
from cursor state `(i, j)` onward, paired with the outcome (`Except.error` for
the `panic` on a malformed comparison result).  The loop reads only the local
copies `maxLeft`, `maxRight` of the lengths and the `Compare` capability. -/
def zipLoop (cmp : Int → Int → Ord) (maxLeft maxRight i j : Int) :
    List Call × Except String Unit :=
  if h : i < maxLeft ∨ j < maxRight then
    if hL : maxLeft ≤ i then
      let r := zipLoop cmp maxLeft maxRight i (j + 1)
      (Call.addRight j :: r.1, r.2)
    else if hR : maxRight ≤ j then
      let r := zipLoop cmp maxLeft maxRight (i + 1) j
      (Call.addLeft i :: r.1, r.2)
    else
      let c := cmp i j
      if c = Less then
        let r := zipLoop cmp maxLeft maxRight (i + 1) j
        (Call.compare i j :: Call.addLeft i :: r.1, r.2)
      else if c = Greater then
        let r := zipLoop cmp maxLeft maxRight i (j + 1)
        (Call.compare i j :: Call.addRight j :: r.1, r.2)
      else if c = Equal then
        let r := zipLoop cmp maxLeft maxRight (i + 1) (j + 1)
        (Call.compare i j :: Call.addBoth i j :: r.1, r.2)
      else
        ([Call.compare i j],
          Except.error "Zip: compare returned unexpected value")
  else
    ([], Except.ok ())
termination_by (maxLeft - i).toNat + (maxRight - j).toNat
decreasing_by all_goals omega

/-- `ZipWithGaps` (src/zip.go lines 35-69): reads both lengths once, panics on
a negative length before any append, otherwise runs the merge loop from
cursors `(0, 0)`. -/
def ZipWithGaps (z : Zipper) : List Call × Except String Unit :=
  let maxLeft := z.lenLeft
  let maxRight := z.lenRight
  if maxLeft < 0 ∨ maxRight < 0 then
    ([Call.lenLeft, Call.lenRight],
      Except.error "ZipWithGaps: negative lengths")
  else
    let r := zipLoop z.compare maxLeft maxRight 0 0
    (Call.lenLeft :: Call.lenRight :: r.1, r.2)

/-- `alwaysEqualZipper` (src/zip.go lines 71-77): wraps a `Zipper`, delegating
everything but forcing `Compare` to return `Equal`. -/
def alwaysEqualZipper (z : Zipper) : Zipper :=
  { lenLeft := z.lenLeft, lenRight := z.lenRight, compare := fun _ _ => Equal }

/-- `Zip` (src/zip.go lines 82-84). -/
def Zip (z : Zipper) : List Call × Except String Unit :=
  ZipWithGaps (alwaysEqualZipper z)

/-- Is the call one of the three append operations? -/
def isAppend : Call → Bool
  | Call.addLeft _ => true
  | Call.addRight _ => true
  | Call.addBoth _ _ => true
  | _ => false

/-- The subsequence of append calls of a trace. -/
def appends (t : List Call) : List Call := t.filter isAppend

/-- The left index an append call consumes, if any. -/
def leftIdx : Call → Option Int
  | Call.addLeft i => some i
  | Call.addBoth i _ => some i
  | _ => none

/-- The right index an append call consumes, if any. -/
def rightIdx : Call → Option Int
  | Call.addRight j => some j
  | Call.addBoth _ j => some j
  | _ => none

/-- Left indices consumed over a trace, in call order. -/
def leftConsumed (t : List Call) : List Int := t.filterMap leftIdx

/-- Right indices consumed over a trace, in call order. -/
def rightConsumed (t : List Call) : List Int := t.filterMap rightIdx

/-- Is the call a `Compare` invocation? -/
def isCompare : Call → Bool
  | Call.compare _ _ => true
  | _ => false

/-- Is the call a `LenLeft` or `LenRight` query? -/
def isLenQuery : Call → Bool
  | Call.lenLeft => true
  | Call.lenRight => true
  | _ => false

/-- The integers from `a` (inclusive) to `b` (exclusive), ascending;
empty when `b ≤ a`. -/
def intRange (a b : Int) : List Int :=
  (List.range (b - a).toNat).map fun t : Nat => a + (t : Int)

/-- The comparator returns only the three legal `Ord` values on every pair of
in-range indices. -/
def validOn (cmp : Int → Int → Ord) (m n : Int) : Prop :=
  ∀ i j : Int, 0 ≤ i → i < m → 0 ≤ j → j < n →
    cmp i j = Less ∨ cmp i j = Greater ∨ cmp i j = Equal

/-- The number of iterations the `for` loop of `ZipWithGaps` executes from
cursor state `(i, j)`: same recursion structure as `zipLoop`, counting one per
executed loop body (the body that panics on a malformed comparison result
still counts as an iteration). -/
def zipIterations (cmp : Int → Int → Ord) (maxLeft maxRight i j : Int) : Nat :=
  if h : i < maxLeft ∨ j < maxRight then
    if hL : maxLeft ≤ i then
      1 + zipIterations cmp maxLeft maxRight i (j + 1)
    else if hR : maxRight ≤ j then
      1 + zipIterations cmp maxLeft maxRight (i + 1) j
    else
      let c := cmp i j
      if c = Less then 1 + zipIterations cmp maxLeft maxRight (i + 1) j
      else if c = Greater then 1 + zipIterations cmp maxLeft maxRight i (j + 1)
      else if c = Equal then 1 + zipIterations cmp maxLeft maxRight (i + 1) (j + 1)
      else 1
  else 0
termination_by (maxLeft - i).toNat + (maxRight - j).toNat
decreasing_by all_goals omega

/-- Every index mentioned by a capability call is in range for lengths
`m`, `n`. -/
def callInRange (m n : Int) : Call → Bool
  | Call.lenLeft => true
  | Call.lenRight => true
  | Call.compare i j => decide (0 ≤ i) && decide (i < m) && decide (0 ≤ j) && decide (j < n)
  | Call.addLeft i => decide (0 ≤ i) && decide (i < m)
  | Call.addRight j => decide (0 ≤ j) && decide (j < n)
  | Call.addBoth i j => decide (0 ≤ i) && decide (i < m) && decide (0 ≤ j) && decide (j < n)

/-- The cursor states the merge loop of `ZipWithGaps` passes through when run
from `(0, 0)` with comparator `cmp` and length bounds `m`, `n`: one
constructor per loop branch of src/zip.go lines 42-68. -/
inductive Reaches (cmp : Int → Int → Ord) (m n : Int) : Int → Int → Prop where
  | init : Reaches cmp m n 0 0
  | drainRight {i j : Int} : Reaches cmp m n i j → m ≤ i → j < n →
      Reaches cmp m n i (j + 1)
  | drainLeft {i j : Int} : Reaches cmp m n i j → i < m → n ≤ j →
      Reaches cmp m n (i + 1) j
  | less {i j : Int} : Reaches cmp m n i j → i < m → j < n →
      cmp i j = Less → Reaches cmp m n (i + 1) j
  | greater {i j : Int} : Reaches cmp m n i j → i < m → j < n →
      cmp i j = Greater → Reaches cmp m n i (j + 1)
  | equal {i j : Int} : Reaches cmp m n i j → i < m → j < n →
      cmp i j = Equal → Reaches cmp m n (i + 1) (j + 1)

/-- Spec-side description of the append calls of `Zip`, written from the
spec's words for the refinement claim: "`Zip` calls `AddBoth(i,i)` for `i` in
`0..min(m,n)`, then appends the tail of the longer sequence individually" (via
`AddLeft` when the left side is longer, `AddRight` when the right side is). -/
def zipSpecAppends (m n : Int) : List Call :=
  (intRange 0 (min m n)).map (fun a => Call.addBoth a a)
    ++ (intRange (min m n) m).map Call.addLeft
    ++ (intRange (min m n) n).map Call.addRight

/-- `ZipWithGaps` over a `Zipper` whose length queries may report a different
value on each successive call: `lenLeftAt k` (resp. `lenRightAt k`) is what the
`k`-th call of `LenLeft` (resp. `LenRight`) would return, counting from 0.
Mirrors src/zip.go lines 35-69, which reads each length exactly once into the
locals `maxLeft`, `maxRight` before the negative-length check and the loop. -/
def ZipWithGapsDyn (lenLeftAt lenRightAt : Nat → Int) (cmp : Int → Int → Ord) :
    List Call × Except String Unit :=
  let maxLeft := lenLeftAt 0
  let maxRight := lenRightAt 0
  if maxLeft < 0 ∨ maxRight < 0 then
    ([Call.lenLeft, Call.lenRight],
      Except.error "ZipWithGaps: negative lengths")
  else
    let r := zipLoop cmp maxLeft maxRight 0 0
    (Call.lenLeft :: Call.lenRight :: r.1, r.2)

/-- Three-way numeric comparison on `Int`, for the concrete scenario. -/
def cmpInt (a b : Int) : Ord :=
  if a < b then Less else if b < a then Greater else Equal

/-- The concrete scenario of the spec: left = [1,3,5], right = [2,3,4] under
numeric ordering. -/
def exampleZipper : Zipper :=
  { lenLeft := 3
    lenRight := 3
    compare := fun i j =>
      cmpInt ([1, 3, 5].getD i.toNat 0) ([2, 3, 4].getD j.toNat 0) }

theorem intRange_empty {a b : Int} (h : b ≤ a) : intRange a b = [] := by
  simp [intRange, Int.toNat_of_nonpos (by omega : b - a ≤ 0)]

theorem intRange_cons {a b : Int} (h : a < b) :
    intRange a b = a :: intRange (a + 1) b := by
  have hn : (b - a).toNat = (b - (a + 1)).toNat + 1 := by omega
  unfold intRange
  rw [hn, List.range_succ_eq_map, List.map_cons, List.map_map]
  congr 1
  · simp
  · apply List.map_congr_left
    intro t _
    simp only [Function.comp_apply, Nat.succ_eq_add_one]
    push_cast
    ring

/-! ### Step equations of the merge loop -/

theorem zipLoop_stepDrainRight (cmp : Int → Int → Ord) (m n i j : Int)
    (hi : m ≤ i) (hj : j < n) :
    zipLoop cmp m n i j =
      (Call.addRight j :: (zipLoop cmp m n i (j + 1)).1,
        (zipLoop cmp m n i (j + 1)).2) := by
  rw [zipLoop, dif_pos (Or.inr hj), dif_pos hi]

theorem zipLoop_stepDrainLeft (cmp : Int → Int → Ord) (m n i j : Int)
    (hi : i < m) (hj : n ≤ j) :
    zipLoop cmp m n i j =
      (Call.addLeft i :: (zipLoop cmp m n (i + 1) j).1,
        (zipLoop cmp m n (i + 1) j).2) := by
  rw [zipLoop, dif_pos (Or.inl hi), dif_neg (by omega), dif_pos hj]

theorem zipLoop_stepLess (cmp : Int → Int → Ord) (m n i j : Int)
    (hi : i < m) (hj : j < n) (hc : cmp i j = Less) :
    zipLoop cmp m n i j =
      (Call.compare i j :: Call.addLeft i :: (zipLoop cmp m n (i + 1) j).1,
        (zipLoop cmp m n (i + 1) j).2) := by
  rw [zipLoop, dif_pos (Or.inl hi), dif_neg (by omega), dif_neg (by omega)]
  simp only [hc, if_pos]

theorem zipLoop_stepGreater (cmp : Int → Int → Ord) (m n i j : Int)
    (hi : i < m) (hj : j < n) (hc : cmp i j = Greater) :
    zipLoop cmp m n i j =
      (Call.compare i j :: Call.addRight j :: (zipLoop cmp m n i (j + 1)).1,
        (zipLoop cmp m n i (j + 1)).2) := by
  rw [zipLoop, dif_pos (Or.inl hi), dif_neg (by omega), dif_neg (by omega)]
  have hne : cmp i j ≠ Less := by
    rw [hc]
    decide
  simp only [hc, hne, if_neg, if_pos]
  simp [Less, Greater]

theorem zipLoop_stepEqual (cmp : Int → Int → Ord) (m n i j : Int)
    (hi : i < m) (hj : j < n) (hc : cmp i j = Equal) :
    zipLoop cmp m n i j =
      (Call.compare i j :: Call.addBoth i j :: (zipLoop cmp m n (i + 1) (j + 1)).1,
        (zipLoop cmp m n (i + 1) (j + 1)).2) := by
  rw [zipLoop, dif_pos (Or.inl hi), dif_neg (by omega), dif_neg (by omega)]
  simp [hc, Less, Greater, Equal]

theorem zipLoop_stepBad (cmp : Int → Int → Ord) (m n i j : Int)
    (hi : i < m) (hj : j < n) (h1 : cmp i j ≠ Less) (h2 : cmp i j ≠ Greater)
    (h3 : cmp i j ≠ Equal) :
    zipLoop cmp m n i j =
      ([Call.compare i j],
        Except.error "Zip: compare returned unexpected value") := by
  rw [zipLoop, dif_pos (Or.inl hi), dif_neg (by omega), dif_neg (by omega)]
  simp [h1, h2, h3]

theorem zipLoop_done (cmp : Int → Int → Ord) (m n i j : Int)
    (hi : m ≤ i) (hj : n ≤ j) :
    zipLoop cmp m n i j = ([], Except.ok ()) := by
  rw [zipLoop, dif_neg (by omega)]

/-! ### Step equations of the iteration counter -/

theorem zipIterations_stepDrainRight (cmp : Int → Int → Ord) (m n i j : Int)
    (hi : m ≤ i) (hj : j < n) :
    zipIterations cmp m n i j = 1 + zipIterations cmp m n i (j + 1) := by
  rw [zipIterations, dif_pos (Or.inr hj), dif_pos hi]

theorem zipIterations_stepDrainLeft (cmp : Int → Int → Ord) (m n i j : Int)
    (hi : i < m) (hj : n ≤ j) :
    zipIterations cmp m n i j = 1 + zipIterations cmp m n (i + 1) j := by
  rw [zipIterations, dif_pos (Or.inl hi), dif_neg (by omega), dif_pos hj]

theorem zipIterations_stepLess (cmp : Int → Int → Ord) (m n i j : Int)
    (hi : i < m) (hj : j < n) (hc : cmp i j = Less) :
    zipIterations cmp m n i j = 1 + zipIterations cmp m n (i + 1) j := by
  rw [zipIterations, dif_pos (Or.inl hi), dif_neg (by omega), dif_neg (by omega)]
  simp only [hc, if_pos]

theorem zipIterations_stepGreater (cmp : Int → Int → Ord) (m n i j : Int)
    (hi : i < m) (hj : j < n) (hc : cmp i j = Greater) :
    zipIterations cmp m n i j = 1 + zipIterations cmp m n i (j + 1) := by
  rw [zipIterations, dif_pos (Or.inl hi), dif_neg (by omega), dif_neg (by omega)]
  simp [hc, Less, Greater]

theorem zipIterations_stepEqual (cmp : Int → Int → Ord) (m n i j : Int)
    (hi : i < m) (hj : j < n) (hc : cmp i j = Equal) :
    zipIterations cmp m n i j = 1 + zipIterations cmp m n (i + 1) (j + 1) := by
  rw [zipIterations, dif_pos (Or.inl hi), dif_neg (by omega), dif_neg (by omega)]
  simp [hc, Less, Greater, Equal]

theorem zipIterations_done (cmp : Int → Int → Ord) (m n i j : Int)
    (hi : m ≤ i) (hj : n ≤ j) :
    zipIterations cmp m n i j = 0 := by
  rw [zipIterations, dif_neg (by omega)]

/-! ### Drain lemmas: behaviour once one side is exhausted -/

theorem zipLoop_drainRight (cmp : Int → Int → Ord) (m n i j : Int) (hi : m ≤ i) :
    zipLoop cmp m n i j = ((intRange j n).map Call.addRight, Except.ok ()) := by
  revert hi
  induction i, j using zipLoop.induct cmp m n with
  | case1 i j h hL ih =>
    intro hi
    have hj : j < n := by omega
    rw [zipLoop_stepDrainRight cmp m n i j hi hj, ih hi, intRange_cons hj]
    simp
  | case2 i j h hL hR ih =>
    intro hi
    omega
  | case3 i j h hL hR c hc ih =>
    intro hi
    omega
  | case4 i j h hL hR hc1 hc2 ih =>
    intro hi
    omega
  | case5 i j h hL hR hc1 hc2 hc3 ih =>
    intro hi
    omega
  | case6 i j h hL hR c hc1 hc2 hc3 =>
    intro hi
    omega
  | case7 i j h =>
    intro hi
    rw [zipLoop_done cmp m n i j hi (by omega), intRange_empty (by omega)]
    simp

theorem zipLoop_drainLeft (cmp : Int → Int → Ord) (m n i j : Int) (hj : n ≤ j) :
    zipLoop cmp m n i j = ((intRange i m).map Call.addLeft, Except.ok ()) := by
  revert hj
  induction i, j using zipLoop.induct cmp m n with
  | case1 i j h hL ih =>
    intro hj
    omega
  | case2 i j h hL hR ih =>
    intro hj
    have hi : i < m := by omega
    rw [zipLoop_stepDrainLeft cmp m n i j hi hj, ih hj, intRange_cons hi]
    simp
  | case3 i j h hL hR c hc ih =>
    intro hj
    omega
  | case4 i j h hL hR hc1 hc2 ih =>
    intro hj
    omega
  | case5 i j h hL hR hc1 hc2 hc3 ih =>
    intro hj
    omega
  | case6 i j h hL hR c hc1 hc2 hc3 =>
    intro hj
    omega
  | case7 i j h =>
    intro hj
    rw [zipLoop_done cmp m n i j (by omega) hj, intRange_empty (by omega)]
    simp

/-! ### Trace bookkeeping helpers -/

theorem appends_cons_keep (c : Call) (h : isAppend c = true) (t : List Call) :
    appends (c :: t) = c :: appends t := by
  simp [appends, List.filter_cons, h]

theorem appends_cons_skip (c : Call) (h : isAppend c = false) (t : List Call) :
    appends (c :: t) = appends t := by
  simp [appends, List.filter_cons, h]

/-! ### The run with a well-formed comparator -/

theorem zipLoop_valid (cmp : Int → Int → Ord) (m n : Int) (hv : validOn cmp m n)
    (i j : Int) : 0 ≤ i → 0 ≤ j →
    (zipLoop cmp m n i j).2 = Except.ok () ∧
    leftConsumed (zipLoop cmp m n i j).1 = intRange i m ∧
    rightConsumed (zipLoop cmp m n i j).1 = intRange j n := by
  induction i, j using zipLoop.induct cmp m n with
  | case1 i j h hL ih =>
    intro hi hj
    have hjn : j < n := by omega
    rw [zipLoop_stepDrainRight cmp m n i j hL hjn]
    obtain ⟨e, l, r⟩ := ih hi (by omega)
    refine ⟨e, ?_, ?_⟩
    · simpa [leftConsumed, leftIdx] using l
    · rw [intRange_cons hjn]
      simpa [rightConsumed, rightIdx] using r
  | case2 i j h hL hR ih =>
    intro hi hj
    have him : i < m := by omega
    rw [zipLoop_stepDrainLeft cmp m n i j him hR]
    obtain ⟨e, l, r⟩ := ih (by omega) hj
    refine ⟨e, ?_, ?_⟩
    · rw [intRange_cons him]
      simpa [leftConsumed, leftIdx] using l
    · simpa [rightConsumed, rightIdx] using r
  | case3 i j h hL hR c hc ih =>
    intro hi hj
    have him : i < m := by omega
    have hjn : j < n := by omega
    rw [zipLoop_stepLess cmp m n i j him hjn hc]
    obtain ⟨e, l, r⟩ := ih (by omega) hj
    refine ⟨e, ?_, ?_⟩
    · rw [intRange_cons him]
      simpa [leftConsumed, leftIdx] using l
    · simpa [rightConsumed, rightIdx] using r
  | case4 i j h hL hR c hc1 hc ih =>
    intro hi hj
    have him : i < m := by omega
    have hjn : j < n := by omega
    rw [zipLoop_stepGreater cmp m n i j him hjn hc]
    obtain ⟨e, l, r⟩ := ih hi (by omega)
    refine ⟨e, ?_, ?_⟩
    · simpa [leftConsumed, leftIdx] using l
    · rw [intRange_cons hjn]
      simpa [rightConsumed, rightIdx] using r
  | case5 i j h hL hR c hc1 hc2 hc ih =>
    intro hi hj
    have him : i < m := by omega
    have hjn : j < n := by omega
    rw [zipLoop_stepEqual cmp m n i j him hjn hc]
    obtain ⟨e, l, r⟩ := ih (by omega) (by omega)
    refine ⟨e, ?_, ?_⟩
    · rw [intRange_cons him]
      simpa [leftConsumed, leftIdx] using l
    · rw [intRange_cons hjn]
      simpa [rightConsumed, rightIdx] using r
  | case6 i j h hL hR c hc1 hc2 hc3 =>
    intro hi hj
    rcases hv i j hi (by omega) hj (by omega) with hcc | hcc | hcc
    · exact absurd hcc hc1
    · exact absurd hcc hc2
    · exact absurd hcc hc3
  | case7 i j h =>
    intro hi hj
    rw [zipLoop_done cmp m n i j (by omega) (by omega),
      intRange_empty (a := i) (by omega), intRange_empty (a := j) (by omega)]
    simp [leftConsumed, rightConsumed]

theorem zipLoop_count (cmp : Int → Int → Ord) (m n : Int) (hv : validOn cmp m n)
    (i j : Int) : 0 ≤ i → 0 ≤ j →
    (appends (zipLoop cmp m n i j).1).length = zipIterations cmp m n i j ∧
    max (m - i).toNat (n - j).toNat ≤ (appends (zipLoop cmp m n i j).1).length ∧
    (appends (zipLoop cmp m n i j).1).length ≤ (m - i).toNat + (n - j).toNat := by
  induction i, j using zipLoop.induct cmp m n with
  | case1 i j h hL ih =>
    intro hi hj
    have hjn : j < n := by omega
    rw [zipLoop_stepDrainRight cmp m n i j hL hjn]
    rw [zipIterations_stepDrainRight cmp m n i j hL hjn]
    obtain ⟨e, lo, up⟩ := ih hi (by omega)
    rw [appends_cons_keep (Call.addRight j) rfl _]
    simp only [List.length_cons]
    omega
  | case2 i j h hL hR ih =>
    intro hi hj
    have him : i < m := by omega
    rw [zipLoop_stepDrainLeft cmp m n i j him hR]
    rw [zipIterations_stepDrainLeft cmp m n i j him hR]
    obtain ⟨e, lo, up⟩ := ih (by omega) hj
    rw [appends_cons_keep (Call.addLeft i) rfl _]
    simp only [List.length_cons]
    omega
  | case3 i j h hL hR c hc ih =>
    intro hi hj
    have him : i < m := by omega
    have hjn : j < n := by omega
    rw [zipLoop_stepLess cmp m n i j him hjn hc]
    rw [zipIterations_stepLess cmp m n i j him hjn hc]
    obtain ⟨e, lo, up⟩ := ih (by omega) hj
    rw [appends_cons_skip (Call.compare i j) rfl _,
      appends_cons_keep (Call.addLeft i) rfl _]
    simp only [List.length_cons]
    omega
  | case4 i j h hL hR c hc1 hc ih =>
    intro hi hj
    have him : i < m := by omega
    have hjn : j < n := by omega
    rw [zipLoop_stepGreater cmp m n i j him hjn hc]
    rw [zipIterations_stepGreater cmp m n i j him hjn hc]
    obtain ⟨e, lo, up⟩ := ih hi (by omega)
    rw [appends_cons_skip (Call.compare i j) rfl _,
      appends_cons_keep (Call.addRight j) rfl _]
    simp only [List.length_cons]
    omega
  | case5 i j h hL hR c hc1 hc2 hc ih =>
    intro hi hj
    have him : i < m := by omega
    have hjn : j < n := by omega
    rw [zipLoop_stepEqual cmp m n i j him hjn hc]
    rw [zipIterations_stepEqual cmp m n i j him hjn hc]
    obtain ⟨e, lo, up⟩ := ih (by omega) (by omega)
    rw [appends_cons_skip (Call.compare i j) rfl _,
      appends_cons_keep (Call.addBoth i j) rfl _]
    simp only [List.length_cons]
    omega
  | case6 i j h hL hR c hc1 hc2 hc3 =>
    intro hi hj
    rcases hv i j hi (by omega) hj (by omega) with hcc | hcc | hcc
    · exact absurd hcc hc1
    · exact absurd hcc hc2
    · exact absurd hcc hc3
  | case7 i j h =>
    intro hi hj
    rw [zipLoop_done cmp m n i j (by omega) (by omega)]
    rw [zipIterations_done cmp m n i j (by omega) (by omega)]
    simp [appends]
    omega

/-! ### The loop never queries a length -/

theorem zipLoop_noLenQuery (cmp : Int → Int → Ord) (m n i j : Int) :
    ∀ c ∈ (zipLoop cmp m n i j).1, isLenQuery c = false := by
  induction i, j using zipLoop.induct cmp m n with
  | case1 i j h hL ih =>
    rw [zipLoop_stepDrainRight cmp m n i j hL (by omega)]
    intro c hc
    rcases List.mem_cons.mp hc with rfl | hc2
    · rfl
    · exact ih c hc2
  | case2 i j h hL hR ih =>
    rw [zipLoop_stepDrainLeft cmp m n i j (by omega) hR]
    intro c hc
    rcases List.mem_cons.mp hc with rfl | hc2
    · rfl
    · exact ih c hc2
  | case3 i j h hL hR c hc ih =>
    rw [zipLoop_stepLess cmp m n i j (by omega) (by omega) hc]
    intro c hc0
    rcases List.mem_cons.mp hc0 with rfl | hc1
    · rfl
    rcases List.mem_cons.mp hc1 with rfl | hc2
    · rfl
    · exact ih c hc2
  | case4 i j h hL hR c hc1 hc ih =>
    rw [zipLoop_stepGreater cmp m n i j (by omega) (by omega) hc]
    intro c hc0
    rcases List.mem_cons.mp hc0 with rfl | hcm
    · rfl
    rcases List.mem_cons.mp hcm with rfl | hc2
    · rfl
    · exact ih c hc2
  | case5 i j h hL hR c hc1 hc2 hc ih =>
    rw [zipLoop_stepEqual cmp m n i j (by omega) (by omega) hc]
    intro c hc0
    rcases List.mem_cons.mp hc0 with rfl | hcm
    · rfl
    rcases List.mem_cons.mp hcm with rfl | hcn
    · rfl
    · exact ih c hcn
  | case6 i j h hL hR c hc1 hc2 hc3 =>
    rw [zipLoop_stepBad cmp m n i j (by omega) (by omega) hc1 hc2 hc3]
    intro c hc
    rcases List.mem_singleton.mp hc with rfl
    rfl
  | case7 i j h =>
    rw [zipLoop_done cmp m n i j (by omega) (by omega)]
    intro c hc
    simp at hc

/-! ### Every index the loop passes out is in range -/

theorem zipLoop_inRange (cmp : Int → Int → Ord) (m n i j : Int) :
    0 ≤ i → 0 ≤ j → ∀ c ∈ (zipLoop cmp m n i j).1, callInRange m n c = true := by
  induction i, j using zipLoop.induct cmp m n with
  | case1 i j h hL ih =>
    intro hi hj
    rw [zipLoop_stepDrainRight cmp m n i j hL (by omega)]
    intro c hc
    rcases List.mem_cons.mp hc with rfl | hc2
    · simp only [callInRange, Bool.and_eq_true, decide_eq_true_eq]
      omega
    · exact ih hi (by omega) c hc2
  | case2 i j h hL hR ih =>
    intro hi hj
    rw [zipLoop_stepDrainLeft cmp m n i j (by omega) hR]
    intro c hc
    rcases List.mem_cons.mp hc with rfl | hc2
    · simp only [callInRange, Bool.and_eq_true, decide_eq_true_eq]
      omega
    · exact ih (by omega) hj c hc2
  | case3 i j h hL hR c hc ih =>
    intro hi hj
    rw [zipLoop_stepLess cmp m n i j (by omega) (by omega) hc]
    intro c hc0
    rcases List.mem_cons.mp hc0 with rfl | hcm
    · simp only [callInRange, Bool.and_eq_true, decide_eq_true_eq]
      omega
    rcases List.mem_cons.mp hcm with rfl | hc2
    · simp only [callInRange, Bool.and_eq_true, decide_eq_true_eq]
      omega
    · exact ih (by omega) hj c hc2
  | case4 i j h hL hR c hc1 hc ih =>
    intro hi hj
    rw [zipLoop_stepGreater cmp m n i j (by omega) (by omega) hc]
    intro c hc0
    rcases List.mem_cons.mp hc0 with rfl | hcm
    · simp only [callInRange, Bool.and_eq_true, decide_eq_true_eq]
      omega
    rcases List.mem_cons.mp hcm with rfl | hc2
    · simp only [callInRange, Bool.and_eq_true, decide_eq_true_eq]
      omega
    · exact ih hi (by omega) c hc2
  | case5 i j h hL hR c hc1 hc2 hc ih =>
    intro hi hj
    rw [zipLoop_stepEqual cmp m n i j (by omega) (by omega) hc]
    intro c hc0
    rcases List.mem_cons.mp hc0 with rfl | hcm
    · simp only [callInRange, Bool.and_eq_true, decide_eq_true_eq]
      omega
    rcases List.mem_cons.mp hcm with rfl | hcn
    · simp only [callInRange, Bool.and_eq_true, decide_eq_true_eq]
      omega
    · exact ih (by omega) (by omega) c hcn
  | case6 i j h hL hR c hc1 hc2 hc3 =>
    intro hi hj
    rw [zipLoop_stepBad cmp m n i j (by omega) (by omega) hc1 hc2 hc3]
    intro c hc
    rcases List.mem_singleton.mp hc with rfl
    simp only [callInRange, Bool.and_eq_true, decide_eq_true_eq]
    omega
  | case7 i j h =>
    intro hi hj
    rw [zipLoop_done cmp m n i j (by omega) (by omega)]
    intro c hc
    simp at hc

/-! ### More trace bookkeeping -/

theorem appends_append (a b : List Call) :
    appends (a ++ b) = appends a ++ appends b := by
  simp [appends, List.filter_append]

theorem appends_map_addRight (l : List Int) :
    appends (l.map Call.addRight) = l.map Call.addRight := by
  induction l with
  | nil => rfl
  | cons a l ih =>
    rw [List.map_cons, appends_cons_keep (Call.addRight a) rfl _, ih]

theorem appends_map_addLeft (l : List Int) :
    appends (l.map Call.addLeft) = l.map Call.addLeft := by
  induction l with
  | nil => rfl
  | cons a l ih =>
    rw [List.map_cons, appends_cons_keep (Call.addLeft a) rfl _, ih]

/-! ### The always-Equal run, in closed form -/

theorem zipLoop_equalDiag (cmp : Int → Int → Ord)
    (hcmp : ∀ a b : Int, cmp a b = Equal) (m n : Int) :
    ∀ (d : Nat) (k : Int), (min m n - k).toNat = d → 0 ≤ k → k ≤ m → k ≤ n →
    appends (zipLoop cmp m n k k).1 =
      (intRange k (min m n)).map (fun a => Call.addBoth a a)
        ++ (intRange (min m n) m).map Call.addLeft
        ++ (intRange (min m n) n).map Call.addRight := by
  intro d
  induction d with
  | zero =>
    intro k hd hk hkm hkn
    have hkmin : k = min m n := by omega
    rcases le_total m n with hmn | hmn
    · have hmeq : min m n = m := min_eq_left hmn
      have hmk : m ≤ k := by omega
      rw [zipLoop_drainRight cmp m n k k hmk]
      have hke : k = m := by omega
      subst hke
      rw [hmeq]
      simp [appends_map_addRight, intRange_empty (le_refl k)]
    · have hmeq : min m n = n := min_eq_right hmn
      have hnk : n ≤ k := by omega
      rw [zipLoop_drainLeft cmp m n k k hnk]
      have hke : k = n := by omega
      subst hke
      rw [hmeq]
      simp [appends_map_addLeft, intRange_empty (le_refl k)]
  | succ d ih =>
    intro k hd hk hkm hkn
    have hkm2 : k < m := by omega
    have hkn2 : k < n := by omega
    rw [zipLoop_stepEqual cmp m n k k hkm2 hkn2 (hcmp k k)]
    rw [appends_cons_skip (Call.compare k k) rfl _,
      appends_cons_keep (Call.addBoth k k) rfl _]
    rw [ih (k + 1) (by omega) (by omega) (by omega) (by omega)]
    rw [intRange_cons (by omega : k < min m n)]
    simp

/-! ### Decomposing a run at a reached cursor state -/

theorem zipLoop_reachSplit (cmp : Int → Int → Ord) (m n i j : Int)
    (hr : Reaches cmp m n i j) :
    ∃ pre, zipLoop cmp m n 0 0 =
      (pre ++ (zipLoop cmp m n i j).1, (zipLoop cmp m n i j).2) := by
  induction hr with
  | init => exact ⟨[], by simp⟩
  | @drainRight i j hr2 hm hj ih =>
    obtain ⟨pre, hpre⟩ := ih
    refine ⟨pre ++ [Call.addRight j], ?_⟩
    rw [hpre, zipLoop_stepDrainRight cmp m n i j hm hj]
    simp
  | @drainLeft i j hr2 hm hj ih =>
    obtain ⟨pre, hpre⟩ := ih
    refine ⟨pre ++ [Call.addLeft i], ?_⟩
    rw [hpre, zipLoop_stepDrainLeft cmp m n i j hm hj]
    simp
  | @less i j hr2 hm hj hc ih =>
    obtain ⟨pre, hpre⟩ := ih
    refine ⟨pre ++ [Call.compare i j, Call.addLeft i], ?_⟩
    rw [hpre, zipLoop_stepLess cmp m n i j hm hj hc]
    simp
  | @greater i j hr2 hm hj hc ih =>
    obtain ⟨pre, hpre⟩ := ih
    refine ⟨pre ++ [Call.compare i j, Call.addRight j], ?_⟩
    rw [hpre, zipLoop_stepGreater cmp m n i j hm hj hc]
    simp
  | @equal i j hr2 hm hj hc ih =>
    obtain ⟨pre, hpre⟩ := ih
    refine ⟨pre ++ [Call.compare i j, Call.addBoth i j], ?_⟩
    rw [hpre, zipLoop_stepEqual cmp m n i j hm hj hc]
    simp

/-! ### Unfolding `ZipWithGaps` itself -/

theorem ZipWithGaps_ok_trace (z : Zipper) (hm : 0 ≤ z.lenLeft) (hn : 0 ≤ z.lenRight) :
    ZipWithGaps z =
      (Call.lenLeft :: Call.lenRight ::
          (zipLoop z.compare z.lenLeft z.lenRight 0 0).1,
        (zipLoop z.compare z.lenLeft z.lenRight 0 0).2) := by
  simp only [ZipWithGaps]
  rw [if_neg (by omega)]

theorem ZipWithGaps_ok_fst (z : Zipper) (hm : 0 ≤ z.lenLeft) (hn : 0 ≤ z.lenRight) :
    (ZipWithGaps z).1 =
      Call.lenLeft :: Call.lenRight ::
        (zipLoop z.compare z.lenLeft z.lenRight 0 0).1 := by
  rw [ZipWithGaps_ok_trace z hm hn]

theorem ZipWithGaps_ok_snd (z : Zipper) (hm : 0 ≤ z.lenLeft) (hn : 0 ≤ z.lenRight) :
    (ZipWithGaps z).2 = (zipLoop z.compare z.lenLeft z.lenRight 0 0).2 := by
  rw [ZipWithGaps_ok_trace z hm hn]

theorem ZipWithGaps_neg_trace (z : Zipper) (h : z.lenLeft < 0 ∨ z.lenRight < 0) :
    ZipWithGaps z =
      ([Call.lenLeft, Call.lenRight],
        Except.error "ZipWithGaps: negative lengths") := by
  simp only [ZipWithGaps]
  rw [if_pos h]

/-! ### Claims -/

/-- C1: for a `Zipper` with both cursors in range (`i < LenLeft`,
`j < LenRight`), the loop of `ZipWithGaps` evaluates `Compare(i, j)` and
dispatches on the result: `Less` emits exactly one `AddLeft(i)` and continues
from `(i+1, j)` (advances `i` only); `Greater` emits exactly one `AddRight(j)`
and continues from `(i, j+1)` (advances `j` only); `Equal` emits exactly one
`AddBoth(i, j)` and continues from `(i+1, j+1)` (advances both). -/
theorem c1_compare_dispatch (z : Zipper) (i j : Int)
    (hi : i < z.lenLeft) (hj : j < z.lenRight) :
    (z.compare i j = Less →
      zipLoop z.compare z.lenLeft z.lenRight i j =
        (Call.compare i j :: Call.addLeft i ::
            (zipLoop z.compare z.lenLeft z.lenRight (i + 1) j).1,
          (zipLoop z.compare z.lenLeft z.lenRight (i + 1) j).2)) ∧
    (z.compare i j = Greater →
      zipLoop z.compare z.lenLeft z.lenRight i j =
        (Call.compare i j :: Call.addRight j ::
            (zipLoop z.compare z.lenLeft z.lenRight i (j + 1)).1,
          (zipLoop z.compare z.lenLeft z.lenRight i (j + 1)).2)) ∧
    (z.compare i j = Equal →
      zipLoop z.compare z.lenLeft z.lenRight i j =
        (Call.compare i j :: Call.addBoth i j ::
            (zipLoop z.compare z.lenLeft z.lenRight (i + 1) (j + 1)).1,
          (zipLoop z.compare z.lenLeft z.lenRight (i + 1) (j + 1)).2)) :=
  ⟨fun hc => zipLoop_stepLess z.compare z.lenLeft z.lenRight i j hi hj hc,
   fun hc => zipLoop_stepGreater z.compare z.lenLeft z.lenRight i j hi hj hc,
   fun hc => zipLoop_stepEqual z.compare z.lenLeft z.lenRight i j hi hj hc⟩

/-- Witness for C1 at the concrete zipper with lengths 1, 1 and an
always-`Equal` comparator, at cursor state `(0, 0)`. -/
theorem c1_compare_dispatch_witness :
    zipLoop (fun _ _ => Equal) 1 1 0 0 =
      (Call.compare 0 0 :: Call.addBoth 0 0 ::
          (zipLoop (fun _ _ => Equal) 1 1 1 1).1,
        (zipLoop (fun _ _ => Equal) 1 1 1 1).2) :=
  (c1_compare_dispatch ⟨1, 1, fun _ _ => Equal⟩ 0 0 (by decide) (by decide)).2.2 rfl

/-- C2: `Zip z` is the very same run as `ZipWithGaps` over a zipper with the
same lengths and an always-`Equal` comparator, its run succeeds, and its
append-call sequence is `AddBoth(i, i)` for `i` from `0` up to (excluding)
`min(m, n)` in increasing order, followed by the remaining tail of the longer
side one index at a time via `AddLeft` (left longer) or `AddRight` (right
longer), as written in `zipSpecAppends`. -/
theorem c2_zip_always_equal (z : Zipper) (hm : 0 ≤ z.lenLeft) (hn : 0 ≤ z.lenRight) :
    Zip z = ZipWithGaps
        { lenLeft := z.lenLeft, lenRight := z.lenRight, compare := fun _ _ => Equal } ∧
    appends (Zip z).1 = zipSpecAppends z.lenLeft z.lenRight ∧
    (Zip z).2 = Except.ok () := by
  refine ⟨rfl, ?_, ?_⟩
  · have h1 : (Zip z).1 = Call.lenLeft :: Call.lenRight ::
        (zipLoop (fun _ _ => Equal) z.lenLeft z.lenRight 0 0).1 :=
      ZipWithGaps_ok_fst (alwaysEqualZipper z) hm hn
    rw [h1, appends_cons_skip Call.lenLeft rfl _, appends_cons_skip Call.lenRight rfl _]
    rw [zipLoop_equalDiag (fun _ _ => Equal) (fun _ _ => rfl) z.lenLeft z.lenRight
      (min z.lenLeft z.lenRight).toNat 0 (by omega) le_rfl hm hn]
    rfl
  · have h2 : (Zip z).2 = (zipLoop (fun _ _ => Equal) z.lenLeft z.lenRight 0 0).2 :=
      ZipWithGaps_ok_snd (alwaysEqualZipper z) hm hn
    rw [h2]
    exact (zipLoop_valid (fun _ _ => Equal) z.lenLeft z.lenRight
      (fun _ _ _ _ _ _ => Or.inr (Or.inr rfl)) 0 0 le_rfl le_rfl).1

/-- Witness for C2 at lengths 2 and 3 (inner comparator irrelevant). -/
theorem c2_zip_always_equal_witness :
    appends (Zip ⟨2, 3, fun _ _ => Less⟩).1 = zipSpecAppends 2 3 :=
  (c2_zip_always_equal ⟨2, 3, fun _ _ => Less⟩ (by decide) (by decide)).2.1

/-- C3: with non-negative lengths and a comparator returning only the three
legal values, the left indices consumed by `AddLeft`/`AddBoth` over a
`ZipWithGaps` run are exactly `0, 1, ..., LenLeft-1`, each once, in strictly
increasing order, and symmetrically the right indices consumed by
`AddRight`/`AddBoth` are exactly `0, 1, ..., LenRight-1`. -/
theorem c3_each_index_once (z : Zipper) (hm : 0 ≤ z.lenLeft) (hn : 0 ≤ z.lenRight)
    (hv : validOn z.compare z.lenLeft z.lenRight) :
    leftConsumed (ZipWithGaps z).1 = intRange 0 z.lenLeft ∧
    rightConsumed (ZipWithGaps z).1 = intRange 0 z.lenRight := by
  obtain ⟨e, l, r⟩ :=
    zipLoop_valid z.compare z.lenLeft z.lenRight hv 0 0 le_rfl le_rfl
  rw [ZipWithGaps_ok_fst z hm hn]
  constructor
  · simpa [leftConsumed, leftIdx] using l
  · simpa [rightConsumed, rightIdx] using r

/-- Witness for C3 at the zipper with lengths 1, 1 and always-`Equal`. -/
theorem c3_each_index_once_witness :
    leftConsumed (ZipWithGaps ⟨1, 1, fun _ _ => Equal⟩).1 = intRange 0 1 ∧
    rightConsumed (ZipWithGaps ⟨1, 1, fun _ _ => Equal⟩).1 = intRange 0 1 :=
  c3_each_index_once ⟨1, 1, fun _ _ => Equal⟩ (by decide) (by decide)
    (fun _ _ _ _ _ _ => Or.inr (Or.inr rfl))

/-- C4: a negative reported length makes `ZipWithGaps` fail immediately
(panic, embedded as `Except.error`), with zero append calls issued. -/
theorem c4_negative_lengths (z : Zipper) (h : z.lenLeft < 0 ∨ z.lenRight < 0) :
    (ZipWithGaps z).2 = Except.error "ZipWithGaps: negative lengths" ∧
    appends (ZipWithGaps z).1 = [] := by
  rw [ZipWithGaps_neg_trace z h]
  exact ⟨rfl, rfl⟩

/-- Witness for C4 at `LenLeft = -1`. -/
theorem c4_negative_lengths_witness :
    (ZipWithGaps ⟨-1, 0, fun _ _ => Equal⟩).2 =
      Except.error "ZipWithGaps: negative lengths" ∧
    appends (ZipWithGaps ⟨-1, 0, fun _ _ => Equal⟩).1 = [] :=
  c4_negative_lengths ⟨-1, 0, fun _ _ => Equal⟩ (by decide)

/-- C5: if the scan of `ZipWithGaps` reaches an in-range pair `(i, j)` at which
`Compare` returns a value outside {`Less`, `Equal`, `Greater`}, the run fails
fatally at exactly that point (the trace ends with that `Compare` call and the
outcome is the malformed-comparison panic, not any valid dispatch), and the
append calls of the run are exactly those already emitted before `(i, j)`. -/
theorem c5_malformed_compare (z : Zipper) (i j : Int)
    (hm : 0 ≤ z.lenLeft) (hn : 0 ≤ z.lenRight)
    (hr : Reaches z.compare z.lenLeft z.lenRight i j)
    (hi : i < z.lenLeft) (hj : j < z.lenRight)
    (h1 : z.compare i j ≠ Less) (h2 : z.compare i j ≠ Greater)
    (h3 : z.compare i j ≠ Equal) :
    (ZipWithGaps z).2 = Except.error "Zip: compare returned unexpected value" ∧
    ∃ pre, (ZipWithGaps z).1 =
        Call.lenLeft :: Call.lenRight :: (pre ++ [Call.compare i j]) ∧
      appends (ZipWithGaps z).1 = appends pre := by
  obtain ⟨pre, hpre⟩ :=
    zipLoop_reachSplit z.compare z.lenLeft z.lenRight i j hr
  have hbad := zipLoop_stepBad z.compare z.lenLeft z.lenRight i j hi hj h1 h2 h3
  constructor
  · rw [ZipWithGaps_ok_snd z hm hn, hpre, hbad]
  · refine ⟨pre, ?_, ?_⟩
    · rw [ZipWithGaps_ok_fst z hm hn, hpre, hbad]
    · rw [ZipWithGaps_ok_fst z hm hn, hpre, hbad,
        appends_cons_skip Call.lenLeft rfl _, appends_cons_skip Call.lenRight rfl _,
        appends_append]
      simp [appends, isAppend]

/-- Witness for C5: lengths 1, 1 and a comparator returning 5 at `(0, 0)`. -/
theorem c5_malformed_compare_witness :
    (ZipWithGaps ⟨1, 1, fun _ _ => (5 : Int)⟩).2 =
      Except.error "Zip: compare returned unexpected value" :=
  (c5_malformed_compare ⟨1, 1, fun _ _ => (5 : Int)⟩ 0 0 (by decide) (by decide)
    Reaches.init (by decide) (by decide) (by decide) (by decide) (by decide)).1

/-- C6: once one side is exhausted while the other is not, the loop of
`ZipWithGaps` appends every remaining index of the other side individually in
ascending order (`AddRight` when the left side is exhausted, `AddLeft` when
the right side is), and no further `Compare` calls occur. -/
theorem c6_exhaustion_drain (cmp : Int → Int → Ord) (m n i j : Int) :
    (m ≤ i →
      zipLoop cmp m n i j = ((intRange j n).map Call.addRight, Except.ok ()) ∧
      ∀ c ∈ (zipLoop cmp m n i j).1, isCompare c = false) ∧
    (n ≤ j →
      zipLoop cmp m n i j = ((intRange i m).map Call.addLeft, Except.ok ()) ∧
      ∀ c ∈ (zipLoop cmp m n i j).1, isCompare c = false) := by
  constructor
  · intro hle
    have hd := zipLoop_drainRight cmp m n i j hle
    refine ⟨hd, ?_⟩
    intro c hc
    rw [hd] at hc
    simp only [List.mem_map] at hc
    obtain ⟨x, _, rfl⟩ := hc
    rfl
  · intro hle
    have hd := zipLoop_drainLeft cmp m n i j hle
    refine ⟨hd, ?_⟩
    intro c hc
    rw [hd] at hc
    simp only [List.mem_map] at hc
    obtain ⟨x, _, rfl⟩ := hc
    rfl

/-- Witness for C6: left side (length 1) exhausted at cursor state `(1, 0)`
with right length 2. -/
theorem c6_exhaustion_drain_witness :
    zipLoop (fun _ _ => Equal) 1 2 1 0 =
      ((intRange 0 2).map Call.addRight, Except.ok ()) ∧
    ∀ c ∈ (zipLoop (fun _ _ => Equal) 1 2 1 0).1, isCompare c = false :=
  (c6_exhaustion_drain (fun _ _ => Equal) 1 2 1 0).1 (by decide)

/-- C7: with non-negative lengths `m`, `n` and a well-formed comparator,
`ZipWithGaps` terminates normally (no panic), the number of loop iterations
equals the number of append calls, and that count is at least `max m n` and at
most `m + n`. -/
theorem c7_termination_counts (z : Zipper) (hm : 0 ≤ z.lenLeft)
    (hn : 0 ≤ z.lenRight) (hv : validOn z.compare z.lenLeft z.lenRight) :
    (ZipWithGaps z).2 = Except.ok () ∧
    (appends (ZipWithGaps z).1).length =
      zipIterations z.compare z.lenLeft z.lenRight 0 0 ∧
    max z.lenLeft.toNat z.lenRight.toNat ≤ (appends (ZipWithGaps z).1).length ∧
    (appends (ZipWithGaps z).1).length ≤ z.lenLeft.toNat + z.lenRight.toNat := by
  have hvv := zipLoop_valid z.compare z.lenLeft z.lenRight hv 0 0 le_rfl le_rfl
  have hcc := zipLoop_count z.compare z.lenLeft z.lenRight hv 0 0 le_rfl le_rfl
  have htrace : appends (ZipWithGaps z).1 =
      appends (zipLoop z.compare z.lenLeft z.lenRight 0 0).1 := by
    rw [ZipWithGaps_ok_fst z hm hn, appends_cons_skip Call.lenLeft rfl _,
      appends_cons_skip Call.lenRight rfl _]
  refine ⟨?_, ?_, ?_, ?_⟩
  · rw [ZipWithGaps_ok_snd z hm hn]
    exact hvv.1
  · rw [htrace]
    exact hcc.1
  · rw [htrace]
    have h2 := hcc.2.1
    omega
  · rw [htrace]
    have h3 := hcc.2.2
    omega

/-- Witness for C7 at lengths 1, 2 with an always-`Less` comparator. -/
theorem c7_termination_counts_witness :
    (ZipWithGaps ⟨1, 2, fun _ _ => Less⟩).2 = Except.ok () :=
  (c7_termination_counts ⟨1, 2, fun _ _ => Less⟩ (by decide) (by decide)
    (fun _ _ _ _ _ _ => Or.inl rfl)).1

/-- C8: on left = [1,3,5] and right = [2,3,4] under numeric ordering,
`ZipWithGaps` emits exactly `AddLeft(0)`, `AddRight(0)`, `AddBoth(1,1)`,
`AddRight(2)`, `AddLeft(2)`, in that order. -/
theorem c8_concrete_scenario :
    appends (ZipWithGaps exampleZipper).1 =
      [Call.addLeft 0, Call.addRight 0, Call.addBoth 1 1,
        Call.addRight 2, Call.addLeft 2] := by
  simp [ZipWithGaps, exampleZipper, zipLoop, cmpInt, Less, Equal, Greater,
    appends, isAppend]

/-- C9: with non-negative lengths, every `Compare`, `AddLeft`, `AddRight` and
`AddBoth` call a `ZipWithGaps` run makes carries only indices in range
(`0 ≤ i < LenLeft`, `0 ≤ j < LenRight` as applicable). -/
theorem c9_index_safety (z : Zipper) (hm : 0 ≤ z.lenLeft) (hn : 0 ≤ z.lenRight) :
    ∀ c ∈ (ZipWithGaps z).1, callInRange z.lenLeft z.lenRight c = true := by
  rw [ZipWithGaps_ok_fst z hm hn]
  intro c hc
  rcases List.mem_cons.mp hc with rfl | hc1
  · rfl
  rcases List.mem_cons.mp hc1 with rfl | hc2
  · rfl
  · exact zipLoop_inRange z.compare z.lenLeft z.lenRight 0 0 le_rfl le_rfl c hc2

/-- Witness for C9 at lengths 1, 1 with an always-`Equal` comparator, for the
`AddBoth(0, 0)` call of that run. -/
theorem c9_index_safety_witness :
    callInRange 1 1 (Call.addBoth 0 0) = true :=
  c9_index_safety ⟨1, 1, fun _ _ => Equal⟩ (by decide) (by decide)
    (Call.addBoth 0 0) (by simp [ZipWithGaps, zipLoop, Equal, Less, Greater])

/-- C10: `ZipWithGaps` reads `LenLeft` and `LenRight` exactly once each, at
the start of the call (the trace begins with the two length queries and
contains no other), before the negative-length check and before any `Compare`
or append call; the run coincides with `ZipWithGaps` over the initially read
values, so a zipper whose length reports change after the first read produces
the same run as one whose reports stay at the initial values. -/
theorem c10_lengths_read_once (lenLA lenRA lenLB lenRB : Nat → Int)
    (cmp : Int → Int → Ord) (hL : lenLA 0 = lenLB 0) (hR : lenRA 0 = lenRB 0) :
    ZipWithGapsDyn lenLA lenRA cmp = ZipWithGapsDyn lenLB lenRB cmp ∧
    ZipWithGapsDyn lenLA lenRA cmp =
      ZipWithGaps { lenLeft := lenLA 0, lenRight := lenRA 0, compare := cmp } ∧
    ∃ rest, (ZipWithGapsDyn lenLA lenRA cmp).1 =
        Call.lenLeft :: Call.lenRight :: rest ∧
      ∀ c ∈ rest, isLenQuery c = false := by
  refine ⟨?_, rfl, ?_⟩
  · simp only [ZipWithGapsDyn, hL, hR]
  · by_cases h : lenLA 0 < 0 ∨ lenRA 0 < 0
    · refine ⟨[], ?_, by simp⟩
      simp only [ZipWithGapsDyn]
      rw [if_pos h]
    · refine ⟨(zipLoop cmp (lenLA 0) (lenRA 0) 0 0).1, ?_, ?_⟩
      · simp only [ZipWithGapsDyn]
        rw [if_neg h]
      · exact zipLoop_noLenQuery cmp (lenLA 0) (lenRA 0) 0 0

/-- Witness for C10: length oracles that change their report after the first
call give the same run as constant oracles agreeing at call 0. -/
theorem c10_lengths_read_once_witness :
    ZipWithGapsDyn (fun k => if k = 0 then 2 else 7) (fun _ => 3)
        (fun _ _ => Equal) =
      ZipWithGapsDyn (fun _ => 2) (fun k => if k = 0 then 3 else 9)
        (fun _ _ => Equal) :=
  (c10_lengths_read_once (fun k => if k = 0 then 2 else 7) (fun _ => 3)
    (fun _ => 2) (fun k => if k = 0 then 3 else 9) (fun _ _ => Equal)
    (by decide) (by decide)).1

end Collections
